import Mathlib

/-!
Verification of the flavour-tagging calibration utilities (`utils.py`).

The development shallowly embeds the numeric core of the repository:
the two-fold cross calibration `calibrate_probs`, the per-event
aggregation `compute_B_prob_using_part_prob`, the AUC-with-untagged
computation `calculate_auc_with_and_without_untag_events`, the
symmetrizing fit-data construction shared with
`bootstrap_calibrate_prob`, and the train/test splitter.

Machine floats are modelled by real numbers (a dedicated sum type
models the non-finite values where they matter); the fold splitter and
the weighted-AUC scorer live in external packages (`rep.utils`,
`sklearn.metrics`) and are therefore modelled from the specification
text, as marked in their doc comments.
-/

namespace Tagging

/-! ### Splitter (modelled from the spec) -/

/-- Modelled from the spec: a deterministic pseudo-random step used to give
every index a reproducible shuffle key (the concrete generator in
`rep.utils.train_test_split` is not part of this repository; the spec only
demands a seed-determined partition). -/
def lcgStep (x : ℕ) : ℕ := (1103515245 * x + 12345) % 2147483648

/-- Modelled from the spec: the shuffle key of index `i` under `seed`. -/
def splitKey (seed i : ℕ) : ℕ := lcgStep (lcgStep (seed + 1) + i)

/-- Modelled from the spec: ordering of indices by shuffle key, ties broken by
the index itself so that distinct indices are always strictly ordered. -/
def keyLe (seed : ℕ) (i j : ℕ) : Bool :=
  decide (splitKey seed i < splitKey seed j ∨ (splitKey seed i = splitKey seed j ∧ i ≤ j))

/-- Insertion step of insertion sort with a boolean comparator. -/
def insertBy (le : ℕ → ℕ → Bool) (x : ℕ) : List ℕ → List ℕ
  | [] => [x]
  | y :: ys => if le x y then x :: y :: ys else y :: insertBy le x ys

/-- Insertion sort with a boolean comparator. -/
def sortBy (le : ℕ → ℕ → Bool) (l : List ℕ) : List ℕ := l.foldr (insertBy le) []

/-- Modelled from the spec: the seed-determined shuffle of `0, ..., n-1`. -/
def shuffle (seed n : ℕ) : List ℕ := sortBy (keyLe seed) (List.range n)

/-- Modelled from the spec: `rep.utils.train_test_split` on the index range
`0, ..., n-1` with `train_size=0.5` — partitions the shuffled index range
into two halves.  (`calibrate_probs` calls it on `numpy.arange(len(probs))`.) -/
def train_test_split (seed n : ℕ) : List ℕ × List ℕ :=
  ((shuffle seed n).take (n / 2), (shuffle seed n).drop (n / 2))

/-- Modelled from the spec: the set of unique group ids, in order of first
appearance. -/
def uniqueGroups (groups : List ℕ) : List ℕ := groups.dedup

/-- Modelled from the spec: the seed-determined shuffle of the unique group
ids. -/
def shuffleGroups (seed : ℕ) (groups : List ℕ) : List ℕ :=
  sortBy (keyLe seed) (uniqueGroups groups)

/-- Modelled from the spec: `rep.utils.train_test_split_group` — partitions
the unique group ids into two halves and expands each half back to the member
indices, so that no group is split across folds. -/
def train_test_split_group (seed : ℕ) (groups : List ℕ) : List ℕ × List ℕ :=
  ((List.range groups.length).filter
      (fun i => decide (groups.getD i 0 ∈
        (shuffleGroups seed groups).take ((shuffleGroups seed groups).length / 2))),
   (List.range groups.length).filter
      (fun i => decide (groups.getD i 0 ∈
        (shuffleGroups seed groups).drop ((shuffleGroups seed groups).length / 2))))

/-! ### Two-fold cross calibration: `calibrate_probs` (utils.py lines 191-361) -/

noncomputable section

/-- Elementwise `numpy.clip(x, lo, hi)`. -/
def clip (lo hi x : ℝ) : ℝ := max lo (min x hi)

/-- `scipy.special.logit`. -/
def logit (x : ℝ) : ℝ := Real.log (x / (1 - x))

/-- `scipy.special.expit`. -/
def expit (x : ℝ) : ℝ := 1 / (1 + Real.exp (-x))

/-- Binarised label: `labels = (labels > threshold) * 1`. -/
def flav (labels : ℕ → ℝ) (threshold : ℝ) (i : ℕ) : ℝ :=
  if threshold < labels i then 1 else 0

/-- Dilution `dil = 2 * probs - 1` (utils.py line 220). -/
def dil (probs : ℕ → ℝ) (i : ℕ) : ℝ := 2 * probs i - 1

/-- Tag `tag = numpy.sign(dil)` (utils.py line 222). -/
def tagOf (probs : ℕ → ℝ) (i : ℕ) : ℝ := Real.sign (dil probs i)

/-- Mistag rate `eta = 0.5 * (1 - |dil|)` (utils.py line 224). -/
def etaOf (probs : ℕ → ℝ) (i : ℕ) : ℝ := 0.5 * (1 - |dil probs i|)

/-- The x-array handed to the fold's calibrator fit (utils.py lines 231-250):
`eta` in eta space, the mirror-augmented probabilities when symmetrizing,
plain probabilities otherwise. -/
def xData (probs : ℕ → ℝ) (inEta symmetrize : Bool) (ind : List ℕ) : List ℝ :=
  if inEta then ind.map (etaOf probs)
  else if symmetrize then ind.map probs ++ ind.map (fun i => 1 - probs i)
  else ind.map probs

/-- The y-array handed to the fold's calibrator fit (utils.py lines 231-250),
boolean arrays written as 0/1 reals. -/
def yData (labels probs : ℕ → ℝ) (threshold : ℝ) (inEta symmetrize : Bool)
    (ind : List ℕ) : List ℝ :=
  if inEta then
    ind.map (fun i => if tagOf probs i ≠ 2 * flav labels threshold i - 1 then 1 else 0)
  else if symmetrize then
    ind.map (fun i => if 0 < flav labels threshold i then 1 else 0)
      ++ ind.map (fun i => if flav labels threshold i ≤ 0 then 1 else 0)
  else ind.map (fun i => if 0 < flav labels threshold i then 1 else 0)

/-- The weight array handed to the fold's calibrator fit (utils.py lines
242-245): halved and duplicated when symmetrizing. -/
def wData (weights : ℕ → ℝ) (inEta symmetrize : Bool) (ind : List ℕ) : List ℝ :=
  if inEta then ind.map weights
  else if symmetrize then
    ind.map (fun i => 0.5 * weights i) ++ ind.map (fun i => 0.5 * weights i)
  else ind.map weights

/-- The feature fed to the underlying regressor: for the logistic variant the
score is clipped and sent through `logit` (utils.py lines 253-262); the
isotonic variant consumes the score unchanged. -/
def feature (logistic inEta : Bool) (x : ℝ) : ℝ :=
  if logistic then
    if inEta then logit (clip 0.00001 0.49999 x) else logit (clip 0.00001 0.99999 x)
  else x

/-- A calibrator-fitting procedure: from feature, target and weight arrays to
a scoring function on features.  `IsotonicRegression` and
`LogisticRegression` from sklearn are external collaborators, so
`calibrate_probs` is parametric in the procedure. -/
def Fit : Type := List ℝ → List ℝ → List ℝ → ℝ → ℝ

/-- The calibrator instance fitted on the fold `ind` (utils.py lines 265-270):
the fit consumes that fold's feature, target and weight arrays. -/
def estCalib (fit : Fit) (labels weights probs : ℕ → ℝ) (threshold : ℝ)
    (logistic inEta symmetrize : Bool) (ind : List ℕ) : ℝ → ℝ :=
  fit ((xData probs inEta symmetrize ind).map (feature logistic inEta))
      (yData labels probs threshold inEta symmetrize ind)
      (wData weights inEta symmetrize ind)

/-- Cross-validated raw scores (utils.py lines 334-341): the calibrator fitted
on `indFit` applied to the feature array of `indApply`. -/
def rawScores (fit : Fit) (labels weights probs : ℕ → ℝ) (threshold : ℝ)
    (logistic inEta symmetrize : Bool) (indFit indApply : List ℕ) : List ℝ :=
  ((xData probs inEta symmetrize indApply).map (feature logistic inEta)).map
    (estCalib fit labels weights probs threshold logistic inEta symmetrize indFit)

/-- The eta-space inverse transform of utils.py lines 344-348 applied to one
raw score `q` with tag `t`: `0.5 * (1 + (1 - 2*q) * t)`. -/
def etaInv (q t : ℝ) : ℝ := 0.5 * (1 + (1 - 2 * q) * t)

/-- Fold scores after the optional transform back to flavour space
(utils.py lines 334-348). -/
def foldScores (fit : Fit) (labels weights probs : ℕ → ℝ) (threshold : ℝ)
    (logistic inEta symmetrize : Bool) (indFit indApply : List ℕ) : List ℝ :=
  if inEta then
    List.zipWith etaInv
      (rawScores fit labels weights probs threshold logistic inEta symmetrize indFit indApply)
      (indApply.map (tagOf probs))
  else rawScores fit labels weights probs threshold logistic inEta symmetrize indFit indApply

/-- The scatter `calibrated_probs = numpy.zeros(len(probs));
calibrated_probs[ind_1] = p1; calibrated_probs[ind_2] = p2` (utils.py lines
351-353); the second fancy assignment wins on any index occurring in both. -/
def scatter (ind₁ ind₂ : List ℕ) (p₁ p₂ : List ℝ) (i : ℕ) : ℝ :=
  if i ∈ ind₂ then p₂.getD (ind₂.indexOf i) 0
  else if i ∈ ind₁ then p₁.getD (ind₁.indexOf i) 0
  else 0

/-- `D2 = numpy.average((1 - 2*calibrated_probs)**2, weights=weights)`
(utils.py lines 356-357). -/
def D2val (weights : ℕ → ℝ) (n : ℕ) (out : ℕ → ℝ) : ℝ :=
  (∑ i ∈ Finset.range n, weights i * (1 - 2 * out i) ^ 2) / ∑ i ∈ Finset.range n, weights i

/-- Two-fold cross calibration `calibrate_probs` (utils.py lines 191-361),
parametric in the calibrator-fitting procedure `fit`.  Fold 1 is scored with
the calibrator fitted on fold 2 and vice versa.  The numpy fancy assignment
`calibrated_probs[ind_1] = p1` raises a `ValueError` whenever the value
array's length differs from the index array's, which the embedding returns
as `none`. -/
def calibrate_probs (fit : Fit) (labels weights probs : ℕ → ℝ) (n : ℕ)
    (logistic : Bool) (random_state : ℕ) (threshold : ℝ)
    (symmetrize inEta : Bool) : Option ((ℕ → ℝ) × ℝ) :=
  let ind₁ := (train_test_split random_state n).1
  let ind₂ := (train_test_split random_state n).2
  let p₁ := foldScores fit labels weights probs threshold logistic inEta symmetrize ind₂ ind₁
  let p₂ := foldScores fit labels weights probs threshold logistic inEta symmetrize ind₁ ind₂
  if p₁.length = ind₁.length ∧ p₂.length = ind₂.length then
    some (scatter ind₁ ind₂ p₁ p₂, D2val weights n (scatter ind₁ ind₂ p₁ p₂))
  else none

/-! ### Bootstrap calibration fit data (utils.py lines 112-126)

Only the isotonic fit-data construction of `bootstrap_calibrate_prob` is
needed by the claims; the fold `ind` is whatever index list the (externally
seeded) splitter returned for the train half. -/

/-- The x-array fitted inside `bootstrap_calibrate_prob`
(utils.py lines 120-126). -/
def bootstrapX (probs : ℕ → ℝ) (symmetrize : Bool) (ind : List ℕ) : List ℝ :=
  if symmetrize then ind.map probs ++ ind.map (fun i => 1 - probs i) else ind.map probs

/-- The y-array fitted inside `bootstrap_calibrate_prob`
(utils.py lines 110 and 120-126); labels are first binarised by
`labels = (labels > threshold) * 1`. -/
def bootstrapY (labels : ℕ → ℝ) (threshold : ℝ) (symmetrize : Bool) (ind : List ℕ) : List ℝ :=
  if symmetrize then
    ind.map (fun i => if 0 < flav labels threshold i then 1 else 0)
      ++ ind.map (fun i => if flav labels threshold i ≤ 0 then 1 else 0)
  else ind.map (flav labels threshold)

/-- The weight array fitted inside `bootstrap_calibrate_prob`
(utils.py lines 121-124). -/
def bootstrapW (weights : ℕ → ℝ) (symmetrize : Bool) (ind : List ℕ) : List ℝ :=
  if symmetrize then
    ind.map (fun i => 0.5 * weights i) ++ ind.map (fun i => 0.5 * weights i)
  else ind.map weights

/-- Modelled from the spec: the Symmetrizer acting on samples, each a triple
(score, 0/1 label, weight) — duplicate each sample, mapping score to
`1 - score`, flipping the class label, halving the original weight and
assigning the same halved weight to the mirror copy, then concatenate. -/
def symmetrizeSamples (l : List (ℝ × ℝ × ℝ)) : List (ℝ × ℝ × ℝ) :=
  l.map (fun t => (t.1, t.2.1, t.2.2 / 2)) ++ l.map (fun t => (1 - t.1, 1 - t.2.1, t.2.2 / 2))

/-! ### Event aggregation: `compute_B_prob_using_part_prob` (utils.py lines 385-412) -/

/-- Per-particle data columns consumed by `compute_B_prob_using_part_prob`
(event id, B sign, particle sign, sWeight). -/
structure PartData where
  event_id : List ℕ
  signB : List ℤ
  signTrack : List ℤ
  weight : List ℝ

/-- `log_probs = numpy.log(probs) - numpy.log(1 - probs)` (utils.py line 400). -/
def log_odds (p : ℝ) : ℝ := Real.log p - Real.log (1 - p)

/-- Count of particles with B sign `s` on the same-sign (`samePart = true`,
`signTrack == 1`) or opposite side — the operands of the `normed_signs`
correction ratio (utils.py line 406). -/
def countSign (d : PartData) (s : ℤ) (samePart : Bool) : ℕ :=
  ((List.range d.event_id.length).filter
    (fun i => decide (d.signB.getD i 0 = s) && (decide (d.signTrack.getD i 0 = 1) == samePart))).length

/-- The `normed_signs` correction ratio
`sum(maskB * (~maskPart)) * 1. / sum(maskB * maskPart)` (utils.py line 406).
The source evaluates it for both signs whenever `normed_signs` is set; when
`countSign d s true = 0` this is a float division by zero (inf or nan in
numpy; total real division in this embedding). -/
def correctionFactor (d : PartData) (s : ℤ) : ℝ :=
  (countSign d s false : ℝ) / (countSign d s true : ℝ)

/-- The per-particle `sign_weights` after the `normed_signs` loop
(utils.py lines 401-406). -/
def sign_weight (d : PartData) (normed : Bool) (i : ℕ) : ℝ :=
  if normed = true ∧ d.signTrack.getD i 0 = 1 ∧ (d.signB.getD i 0 = -1 ∨ d.signB.getD i 0 = 1)
  then correctionFactor d (d.signB.getD i 0) else 1

/-- `log_probs *= sign_weights * data[sign_part_column].values`
(utils.py line 407). -/
def adjLogProb (d : PartData) (probs : List ℝ) (normed : Bool) (i : ℕ) : ℝ :=
  log_odds (probs.getD i 0) * (sign_weight d normed i * ((d.signTrack.getD i 0 : ℤ) : ℝ))

/-- Sorted unique values, as returned by `numpy.unique` (utils.py line 399). -/
def uniqueSorted (l : List ℕ) : List ℕ := sortBy (fun a b => decide (a ≤ b)) l.dedup

/-- The positions holding event id `v` — `numpy.bincount` with
`data_ids = return_inverse` sums exactly over these (utils.py lines 399-411). -/
def eventIndices (d : PartData) (v : ℕ) : List ℕ :=
  (List.range d.event_id.length).filter (fun i => decide (d.event_id.getD i 0 = v))

/-- Per-event sum of a per-particle quantity (`numpy.bincount` with weights). -/
def eventSum (d : PartData) (f : ℕ → ℝ) (v : ℕ) : ℝ := ((eventIndices d v).map f).sum

/-- Per-event particle multiplicity (`numpy.bincount(data_ids)`). -/
def eventCount (d : PartData) (v : ℕ) : ℕ := (eventIndices d v).length

/-- `compute_B_prob_using_part_prob` (utils.py lines 385-412): returns the
per-event mean B sign, mean weight, `expit` of the summed adjusted log odds,
and the sorted unique event ids. -/
def compute_B_prob_using_part_prob (d : PartData) (probs : List ℝ) (normed_signs : Bool) :
    List ℝ × List ℝ × List ℝ × List ℕ :=
  ((uniqueSorted d.event_id).map
      (fun v => eventSum d (fun i => ((d.signB.getD i 0 : ℤ) : ℝ)) v / (eventCount d v : ℝ)),
   (uniqueSorted d.event_id).map
      (fun v => eventSum d (fun i => d.weight.getD i 0) v / (eventCount d v : ℝ)),
   (uniqueSorted d.event_id).map
      (fun v => expit (eventSum d (adjLogProb d probs normed_signs) v)),
   uniqueSorted d.event_id)

/-! ### AUC with untagged events (utils.py lines 47-52 and 364-382) -/

/-- `get_N_B_events` (utils.py lines 47-52). -/
def get_N_B_events : ℝ := 7.42867714256286621e5

/-- Mann-Whitney pair credit: 1 when the positive-class score is larger,
half credit for a tie. -/
def pairContrib (a b : ℝ) : ℝ := if b < a then 1 else if a = b then 1 / 2 else 0

/-- The (sign, prob, weight) triples of a tagged sample. -/
def taggedTriples (Bsign : List ℤ) (Bprobs Bweights : List ℝ) : List (ℤ × ℝ × ℝ) :=
  Bsign.zip (Bprobs.zip Bweights)

/-- Total weight of the class with sign `s`. -/
def classWeightSum (s : ℤ) (trip : List (ℤ × ℝ × ℝ)) : ℝ :=
  ((trip.filter (fun t => decide (t.1 = s))).map (fun t => t.2.2)).sum

/-- Weighted count of concordant positive/negative pairs (ties at half
credit). -/
def waucNum (trip : List (ℤ × ℝ × ℝ)) : ℝ :=
  ((trip.filter (fun t => decide (t.1 = 1))).map
    (fun a => a.2.2 * ((trip.filter (fun t => decide (t.1 = -1))).map
      (fun b => b.2.2 * pairContrib a.2.1 b.2.1)).sum)).sum

/-- Modelled from the spec: `sklearn.metrics.roc_auc_score` (an external
collaborator) as the weighted pairwise AUC — the weighted probability that a
randomly drawn positive-class (`sign = 1`) sample scores above a randomly
drawn negative-class (`sign = -1`) sample, ties counted half. -/
def wauc (Bsign : List ℤ) (Bprobs Bweights : List ℝ) : ℝ :=
  waucNum (taggedTriples Bsign Bprobs Bweights) /
    (classWeightSum 1 (taggedTriples Bsign Bprobs Bweights) *
      classWeightSum (-1) (taggedTriples Bsign Bprobs Bweights))

/-- `calculate_auc_with_and_without_untag_events` (utils.py lines 364-382):
appends two pseudo-samples of signs -1 and +1, probability 0.5 and weight
`(get_N_B_events() - sum(Bweights)) / 2` each, and returns
`(auc, auc_full)`. -/
def calculate_auc_with_and_without_untag_events (Bsign : List ℤ)
    (Bprobs Bweights : List ℝ) : ℝ × ℝ :=
  (wauc Bsign Bprobs Bweights,
   wauc (Bsign ++ [-1, 1]) (Bprobs ++ [1 / 2, 1 / 2])
     (Bweights ++ [(get_N_B_events - Bweights.sum) / 2, (get_N_B_events - Bweights.sum) / 2]))

/-! ### The non-finite clamp of `get_B_data_for_given_part`
(utils.py lines 448-451)

Real numbers have no non-finite values, so the float vector holding the
aggregated probabilities is modelled by a sum type distinguishing ordinary
values from `inf`, `-inf` and `nan`. -/

/-- A double-precision value as seen by `numpy.isfinite` / `numpy.isnan`. -/
inductive RFloat where
  | num (x : ℝ) : RFloat
  | posinf : RFloat
  | neginf : RFloat
  | nan : RFloat

/-- `numpy.isfinite` on one value. -/
def RFloat.isfinite : RFloat → Bool
  | .num _ => true
  | _ => false

/-- `numpy.isnan` on one value. -/
def RFloat.isnan : RFloat → Bool
  | .nan => true
  | _ => false

/-- The caller-side clamp `Bprob[~numpy.isfinite(Bprob)] = 0.5;
Bprob[numpy.isnan(Bprob)] = 0.5` (utils.py lines 450-451) acting on one
element: a total function — it masks, never raises. -/
def clampBprob (p : RFloat) : RFloat :=
  let q := if p.isfinite then p else RFloat.num (1 / 2)
  if q.isnan then RFloat.num (1 / 2) else q

/-- The clamp applied to the whole aggregated-probability array. -/
def clampBprobs (l : List RFloat) : List RFloat := l.map clampBprob

/-! ### Concrete inputs used by counterexamples and witnesses -/

/-- The identity fitting procedure (scores returned unchanged). -/
def exFitId : Fit := fun _ _ _ x => x

/-- A fitting procedure whose scores are clamped into the unit interval, as
isotonic regression with `y_min=0, y_max=1, out_of_bounds='clip'`
guarantees. -/
def exFitClamp : Fit := fun _ _ _ x => max 0 (min x 1)

/-- Labels for the `calibrate_probs` inputs used at concrete points. -/
def exLabels : ℕ → ℝ := fun i => if i = 0 then 1 else -1

/-- Unit weights. -/
def exWeights : ℕ → ℝ := fun _ => 1

/-- Raw scores for the `calibrate_probs` inputs used at concrete points. -/
def exProbs : ℕ → ℝ := fun i => if i = 0 then 7 / 10 else 3 / 10

/-- Constant half scores, used for the eta-space fixed-point claim. -/
def exProbsHalf : ℕ → ℝ := fun _ => 1 / 2

/-- The calibrated output of `calibrate_probs` at the concrete witness input
(isotonic branch, no symmetrization, fold scores written out explicitly). -/
def exOut : ℕ → ℝ :=
  scatter (train_test_split 11 1).1 (train_test_split 11 1).2
    (foldScores exFitClamp exLabels exWeights exProbs 0 false false false
      (train_test_split 11 1).2 (train_test_split 11 1).1)
    (foldScores exFitClamp exLabels exWeights exProbs 0 false false false
      (train_test_split 11 1).1 (train_test_split 11 1).2)

/-- The D2 of the concrete witness input. -/
def exD2 : ℝ := D2val exWeights 1 exOut

/-- The calibrated output at the concrete eta-space witness input. -/
def exOutEta : ℕ → ℝ :=
  scatter (train_test_split 11 1).1 (train_test_split 11 1).2
    (foldScores exFitClamp exLabels exWeights exProbsHalf 0 false true false
      (train_test_split 11 1).2 (train_test_split 11 1).1)
    (foldScores exFitClamp exLabels exWeights exProbsHalf 0 false true false
      (train_test_split 11 1).1 (train_test_split 11 1).2)

/-- The D2 at the concrete eta-space witness input. -/
def exD2Eta : ℝ := D2val exWeights 1 exOutEta

/-- A single-particle event whose particle is opposite-sign
(`signTrack = -1`). -/
def exC3 : PartData := ⟨[0], [1], [-1], [1]⟩

/-- The calibrated particle probability for `exC3`. -/
def exC3probs : List ℝ := [3 / 4]

/-- A single-particle event whose particle is same-sign (`signTrack = 1`). -/
def exC3w : PartData := ⟨[7], [1], [1], [1]⟩

/-- The calibrated particle probability for `exC3w`. -/
def exC3wprobs : List ℝ := [2 / 3]

/-- A nonempty dataset in which no particle has `signB = -1`, so the
`normed_signs` ratio for sign -1 divides by zero. -/
def exC9 : PartData := ⟨[1, 2], [1, 1], [1, -1], [1, 1]⟩

/-- Signs of the tagged sample refuting the AUC betweenness claim. -/
def exC7sign : List ℤ := [1, 1, -1, -1]

/-- Probabilities of the tagged sample refuting the AUC betweenness claim. -/
def exC7probs : List ℝ := [9 / 10, 9 / 20, 17 / 20, 2 / 5]

/-- Weights of the tagged sample refuting the AUC betweenness claim. -/
def exC7w : List ℝ := [3 / 10, 7 / 10, 3 / 5, 2 / 5]

/-- Signs of the sample witnessing the amended AUC claim. -/
def exC7wsign : List ℤ := [1, -1]

/-- Probabilities of the sample witnessing the amended AUC claim. -/
def exC7wprobs : List ℝ := [7 / 10, 3 / 10]

/-- Weights of the sample witnessing the amended AUC claim. -/
def exC7ww : List ℝ := [1, 1]

/-- An aggregated-probability array containing an ordinary value, a `nan`
and an `inf`. -/
def exC8 : List RFloat := [RFloat.num (3 / 10), RFloat.nan, RFloat.posinf]

end

/-! ### Splitter lemmas -/

theorem insertBy_perm (le : ℕ → ℕ → Bool) (x : ℕ) :
    ∀ l : List ℕ, (insertBy le x l).Perm (x :: l) := by
  intro l
  induction l with
  | nil => simp [insertBy]
  | cons y ys ih =>
      by_cases h : le x y
      · simp [insertBy, h]
      · simp only [insertBy, h, Bool.false_eq_true, if_false]
        exact (ih.cons y).trans (List.Perm.swap x y ys)

theorem sortBy_perm (le : ℕ → ℕ → Bool) (l : List ℕ) : (sortBy le l).Perm l := by
  induction l with
  | nil => simp [sortBy]
  | cons y ys ih =>
      have h : sortBy le (y :: ys) = insertBy le y (sortBy le ys) := rfl
      rw [h]
      exact (insertBy_perm le y (sortBy le ys)).trans (ih.cons y)

theorem shuffle_perm (seed n : ℕ) : (shuffle seed n).Perm (List.range n) :=
  sortBy_perm _ _

theorem shuffle_nodup (seed n : ℕ) : (shuffle seed n).Nodup :=
  (shuffle_perm seed n).symm.nodup (List.nodup_range n)

theorem shuffle_mem (seed n i : ℕ) : i ∈ shuffle seed n ↔ i < n := by
  rw [(shuffle_perm seed n).mem_iff, List.mem_range]

theorem shuffle_length (seed n : ℕ) : (shuffle seed n).length = n := by
  rw [(shuffle_perm seed n).length_eq, List.length_range]

theorem train_test_split_disjoint (seed n : ℕ) :
    (train_test_split seed n).1.Disjoint (train_test_split seed n).2 := by
  have h := shuffle_nodup seed n
  rw [← List.take_append_drop (n / 2) (shuffle seed n), List.nodup_append] at h
  exact h.2.2

theorem train_test_split_cover (seed n i : ℕ) :
    (i ∈ (train_test_split seed n).1 ∨ i ∈ (train_test_split seed n).2) ↔ i < n := by
  simp only [train_test_split]
  rw [← List.mem_append, List.take_append_drop, shuffle_mem]

theorem shuffleGroups_perm (seed : ℕ) (groups : List ℕ) :
    (shuffleGroups seed groups).Perm groups.dedup :=
  sortBy_perm _ _

theorem shuffleGroups_nodup (seed : ℕ) (groups : List ℕ) :
    (shuffleGroups seed groups).Nodup :=
  (shuffleGroups_perm seed groups).symm.nodup (List.nodup_dedup groups)

theorem shuffleGroups_mem (seed : ℕ) (groups : List ℕ) (g : ℕ) :
    g ∈ shuffleGroups seed groups ↔ g ∈ groups := by
  rw [(shuffleGroups_perm seed groups).mem_iff, List.mem_dedup]

theorem shuffleGroups_halves_disjoint (seed : ℕ) (groups : List ℕ) :
    ((shuffleGroups seed groups).take ((shuffleGroups seed groups).length / 2)).Disjoint
      ((shuffleGroups seed groups).drop ((shuffleGroups seed groups).length / 2)) := by
  have h := shuffleGroups_nodup seed groups
  rw [← List.take_append_drop ((shuffleGroups seed groups).length / 2) (shuffleGroups seed groups),
    List.nodup_append] at h
  exact h.2.2

theorem train_test_split_group_disjoint (seed : ℕ) (groups : List ℕ) :
    (train_test_split_group seed groups).1.Disjoint (train_test_split_group seed groups).2 := by
  intro i hi₁ hi₂
  simp only [train_test_split_group, List.mem_filter, decide_eq_true_eq] at hi₁ hi₂
  exact shuffleGroups_halves_disjoint seed groups hi₁.2 hi₂.2

theorem train_test_split_group_cover (seed : ℕ) (groups : List ℕ) (i : ℕ) :
    (i ∈ (train_test_split_group seed groups).1 ∨ i ∈ (train_test_split_group seed groups).2) ↔
      i < groups.length := by
  constructor
  · intro h
    rcases h with h | h <;>
      · simp only [train_test_split_group, List.mem_filter, List.mem_range] at h
        exact h.1
  · intro hi
    have hmem : groups.getD i 0 ∈ shuffleGroups seed groups := by
      rw [shuffleGroups_mem]
      rw [List.getD_eq_getElem groups 0 hi]
      exact List.getElem_mem hi
    rw [← List.take_append_drop ((shuffleGroups seed groups).length / 2)
      (shuffleGroups seed groups), List.mem_append] at hmem
    rcases hmem with h | h
    · left
      simp only [train_test_split_group, List.mem_filter, List.mem_range, decide_eq_true_eq]
      exact ⟨hi, h⟩
    · right
      simp only [train_test_split_group, List.mem_filter, List.mem_range, decide_eq_true_eq]
      exact ⟨hi, h⟩

theorem train_test_split_group_no_shared (seed : ℕ) (groups : List ℕ) (i j : ℕ)
    (hi : i ∈ (train_test_split_group seed groups).1)
    (hj : j ∈ (train_test_split_group seed groups).2) :
    groups.getD i 0 ≠ groups.getD j 0 := by
  intro hEq
  simp only [train_test_split_group, List.mem_filter, decide_eq_true_eq] at hi hj
  rw [hEq] at hi
  exact shuffleGroups_halves_disjoint seed groups hi.2 hj.2

/-! ### Length bookkeeping for the fold scores -/

theorem rawScores_length (fit : Fit) (labels weights probs : ℕ → ℝ) (threshold : ℝ)
    (logistic inEta symmetrize : Bool) (indFit indApply : List ℕ) :
    (rawScores fit labels weights probs threshold logistic inEta symmetrize indFit
      indApply).length = (xData probs inEta symmetrize indApply).length := by
  simp [rawScores]

theorem foldScores_length_eta (fit : Fit) (labels weights probs : ℕ → ℝ) (threshold : ℝ)
    (logistic symmetrize : Bool) (indFit indApply : List ℕ) :
    (foldScores fit labels weights probs threshold logistic true symmetrize indFit
      indApply).length = indApply.length := by
  simp [foldScores, rawScores, xData]

theorem foldScores_length_nosym (fit : Fit) (labels weights probs : ℕ → ℝ) (threshold : ℝ)
    (logistic : Bool) (indFit indApply : List ℕ) :
    (foldScores fit labels weights probs threshold logistic false false indFit
      indApply).length = indApply.length := by
  simp [foldScores, rawScores, xData]

theorem foldScores_length_sym (fit : Fit) (labels weights probs : ℕ → ℝ) (threshold : ℝ)
    (logistic : Bool) (indFit indApply : List ℕ) :
    (foldScores fit labels weights probs threshold logistic false true indFit
      indApply).length = 2 * indApply.length := by
  simp [foldScores, rawScores, xData]
  ring

/-- C1: with `symmetrize=True` and `inEtaSpace=False` the scored value arrays
`p1`, `p2` have twice the fold lengths, so the numpy scatter
`calibrated_probs[ind_1] = p1` raises a shape-mismatch `ValueError` instead of
returning: the embedding yields `none` at this concrete, reachable input
(utils.py line 492 invokes exactly this flag configuration). -/
theorem C1_symmetrize_shape_mismatch :
    calibrate_probs exFitId exLabels exWeights exProbs 2 false 11 0 true false = none := by
  simp only [calibrate_probs]
  rw [if_neg]
  intro hcon
  have h1 := hcon.1
  rw [foldScores_length_sym] at h1
  have h2 : (train_test_split 11 2).1.length = 1 := by decide
  rw [h2] at h1
  omega

/-- C5: every split of either splitter partitions the index range — the two
folds are disjoint and jointly exhaust `0, ..., n-1`; the grouped splitter
additionally never places the same group id in both folds. -/
theorem C5_split_is_partition :
    (∀ seed n, (train_test_split seed n).1.Disjoint (train_test_split seed n).2
      ∧ ∀ i, (i ∈ (train_test_split seed n).1 ∨ i ∈ (train_test_split seed n).2) ↔ i < n)
    ∧ ∀ seed groups,
        (train_test_split_group seed groups).1.Disjoint (train_test_split_group seed groups).2
        ∧ (∀ i, (i ∈ (train_test_split_group seed groups).1
            ∨ i ∈ (train_test_split_group seed groups).2) ↔ i < groups.length)
        ∧ ∀ i j, i ∈ (train_test_split_group seed groups).1 →
            j ∈ (train_test_split_group seed groups).2 →
            groups.getD i 0 ≠ groups.getD j 0 :=
  ⟨fun seed n => ⟨train_test_split_disjoint seed n, train_test_split_cover seed n⟩,
   fun seed groups => ⟨train_test_split_group_disjoint seed groups,
     train_test_split_group_cover seed groups,
     train_test_split_group_no_shared seed groups⟩⟩

/-- Witness for C5 at seed 0: index 2 of a 4-element sample lands in one of
the two folds, and for groups `[5, 6]` the members of the two folds carry
different group ids. -/
theorem C5_split_is_partition_witness :
    (2 ∈ (train_test_split 0 4).1 ∨ 2 ∈ (train_test_split 0 4).2)
    ∧ ([5, 6].getD 1 0 ≠ [5, 6].getD 0 0) :=
  ⟨((C5_split_is_partition.1 0 4).2 2).mpr (by decide),
   (C5_split_is_partition.2 0 [5, 6]).2.2 1 0 (by decide) (by decide)⟩

/-- C6: the splitter and `calibrate_probs` are deterministic — calls with
identical seeds and identical inputs return identical partitions, calibrated
arrays and D2 values (in this pure embedding the entire computation is a
function of the declared arguments, with no hidden state). -/
theorem C6_deterministic (fit fit' : Fit) (labels labels' weights weights' probs probs' : ℕ → ℝ)
    (n n' rs rs' : ℕ) (logistic logistic' symmetrize symmetrize' inEta inEta' : Bool)
    (th th' : ℝ) (hfit : fit = fit') (hl : labels = labels') (hw : weights = weights')
    (hp : probs = probs') (hn : n = n') (hrs : rs = rs') (hlog : logistic = logistic')
    (hth : th = th') (hsym : symmetrize = symmetrize') (heta : inEta = inEta') :
    train_test_split rs n = train_test_split rs' n'
    ∧ calibrate_probs fit labels weights probs n logistic rs th symmetrize inEta
      = calibrate_probs fit' labels' weights' probs' n' logistic' rs' th' symmetrize' inEta' := by
  subst hfit hl hw hp hn hrs hlog hth hsym heta
  exact ⟨rfl, rfl⟩

/-- Witness for C6 at a concrete seed and input. -/
theorem C6_deterministic_witness :
    train_test_split 11 2 = train_test_split 11 2
    ∧ calibrate_probs exFitId exLabels exWeights exProbs 2 false 11 0 false false
      = calibrate_probs exFitId exLabels exWeights exProbs 2 false 11 0 false false :=
  C6_deterministic exFitId exFitId exLabels exLabels exWeights exWeights exProbs exProbs
    2 2 11 11 false false false false false false 0 0
    rfl rfl rfl rfl rfl rfl rfl rfl rfl rfl

/-! ### Range bounds for the calibrated output -/

theorem tagOf_cases (probs : ℕ → ℝ) (i : ℕ) :
    tagOf probs i = -1 ∨ tagOf probs i = 0 ∨ tagOf probs i = 1 :=
  Real.sign_apply_eq _

theorem etaInv_bounds (q t : ℝ) (hq0 : 0 ≤ q) (hq1 : q ≤ 1)
    (ht : t = -1 ∨ t = 0 ∨ t = 1) : 0 ≤ etaInv q t ∧ etaInv q t ≤ 1 := by
  rcases ht with h | h | h <;> subst h <;> unfold etaInv <;> constructor <;> nlinarith

theorem foldScores_bounds (fit : Fit) (labels weights probs : ℕ → ℝ) (threshold : ℝ)
    (logistic inEta symmetrize : Bool) (indFit indApply : List ℕ)
    (hfit : ∀ xs ys ws t, 0 ≤ fit xs ys ws t ∧ fit xs ys ws t ≤ 1) :
    ∀ q ∈ foldScores fit labels weights probs threshold logistic inEta symmetrize indFit
      indApply, 0 ≤ q ∧ q ≤ 1 := by
  intro q hq
  cases inEta with
  | false =>
      simp only [foldScores, Bool.false_eq_true, if_false, rawScores, List.mem_map] at hq
      obtain ⟨x, _, hx⟩ := hq
      rw [← hx]
      exact hfit _ _ _ _
  | true =>
      simp only [foldScores, if_true] at hq
      rw [List.mem_iff_getElem] at hq
      obtain ⟨k, hk, hval⟩ := hq
      rw [List.getElem_zipWith] at hval
      rw [← hval]
      refine etaInv_bounds _ _ ?_ ?_ ?_
      · simp only [rawScores, List.getElem_map, estCalib]
        exact (hfit _ _ _ _).1
      · simp only [rawScores, List.getElem_map, estCalib]
        exact (hfit _ _ _ _).2
      · rw [List.getElem_map]
        exact tagOf_cases probs _

theorem getD_bounds (l : List ℝ) (h : ∀ q ∈ l, 0 ≤ q ∧ q ≤ 1) (k : ℕ) :
    0 ≤ l.getD k 0 ∧ l.getD k 0 ≤ 1 := by
  by_cases hk : k < l.length
  · rw [List.getD_eq_getElem l 0 hk]
    exact h _ (List.getElem_mem hk)
  · rw [List.getD_eq_default l 0 (le_of_not_lt hk)]
    norm_num

theorem scatter_bounds (ind₁ ind₂ : List ℕ) (p₁ p₂ : List ℝ)
    (h₁ : ∀ q ∈ p₁, 0 ≤ q ∧ q ≤ 1) (h₂ : ∀ q ∈ p₂, 0 ≤ q ∧ q ≤ 1) (i : ℕ) :
    0 ≤ scatter ind₁ ind₂ p₁ p₂ i ∧ scatter ind₁ ind₂ p₁ p₂ i ≤ 1 := by
  unfold scatter
  split
  · exact getD_bounds p₂ h₂ _
  · split
    · exact getD_bounds p₁ h₁ _
    · norm_num

theorem D2val_bounds (weights : ℕ → ℝ) (n : ℕ) (out : ℕ → ℝ)
    (hw : ∀ i, 0 ≤ weights i) (hpos : 0 < ∑ i ∈ Finset.range n, weights i)
    (hout : ∀ i, 0 ≤ out i ∧ out i ≤ 1) :
    0 ≤ D2val weights n out ∧ D2val weights n out ≤ 1 := by
  constructor
  · apply div_nonneg _ hpos.le
    apply Finset.sum_nonneg
    intro i _
    exact mul_nonneg (hw i) (sq_nonneg _)
  · rw [D2val, div_le_one hpos]
    apply Finset.sum_le_sum
    intro i _
    have hsq : (1 - 2 * out i) ^ 2 ≤ 1 := by
      nlinarith [mul_nonneg (hout i).1 (sub_nonneg.mpr (hout i).2)]
    calc weights i * (1 - 2 * out i) ^ 2 ≤ weights i * 1 :=
          mul_le_mul_of_nonneg_left hsq (hw i)
      _ = weights i := mul_one _

/-- C2: whenever `calibrate_probs` returns, every element of the calibrated
probability array lies in the unit interval, and so does the returned D2
(the weight-averaged `(1 - 2p)^2`), provided the calibrator-fitting
procedure scores into the unit interval (as isotonic regression with
`y_min=0, y_max=1, out_of_bounds='clip'` and logistic `predict_proba` both
guarantee), the weights are non-negative and their total is positive. -/
theorem C2_output_and_D2_in_unit_interval (fit : Fit) (labels weights probs : ℕ → ℝ)
    (n : ℕ) (logistic : Bool) (rs : ℕ) (threshold : ℝ) (symmetrize inEta : Bool)
    (out : ℕ → ℝ) (d2 : ℝ)
    (hfit : ∀ xs ys ws t, 0 ≤ fit xs ys ws t ∧ fit xs ys ws t ≤ 1)
    (hw : ∀ i, 0 ≤ weights i)
    (hwpos : 0 < ∑ i ∈ Finset.range n, weights i)
    (hres : calibrate_probs fit labels weights probs n logistic rs threshold symmetrize inEta
      = some (out, d2)) :
    (∀ i, 0 ≤ out i ∧ out i ≤ 1) ∧ 0 ≤ d2 ∧ d2 ≤ 1 := by
  simp only [calibrate_probs] at hres
  split at hres
  · rw [Option.some.injEq, Prod.mk.injEq] at hres
    obtain ⟨hout, hd2⟩ := hres
    subst hout
    subst hd2
    have hb1 := foldScores_bounds fit labels weights probs threshold logistic inEta symmetrize
      (train_test_split rs n).2 (train_test_split rs n).1 hfit
    have hb2 := foldScores_bounds fit labels weights probs threshold logistic inEta symmetrize
      (train_test_split rs n).1 (train_test_split rs n).2 hfit
    exact ⟨fun i => scatter_bounds _ _ _ _ hb1 hb2 i,
      D2val_bounds weights n _ hw hwpos (fun i => scatter_bounds _ _ _ _ hb1 hb2 i)⟩
  · exact absurd hres (by simp)

/-- Witness for C2: the clamping fit at a one-sample input. -/
theorem C2_output_and_D2_in_unit_interval_witness :
    (∀ i, 0 ≤ exOut i ∧ exOut i ≤ 1) ∧ 0 ≤ exD2 ∧ exD2 ≤ 1 :=
  C2_output_and_D2_in_unit_interval exFitClamp exLabels exWeights exProbs 1 false 11 0
    false false exOut exD2
    (fun _ _ _ t => ⟨le_max_left 0 (min t 1), max_le (by norm_num) (min_le_right t 1)⟩)
    (fun _ => by norm_num [exWeights])
    (by norm_num [exWeights])
    (by
      simp only [calibrate_probs]
      rw [if_pos ⟨foldScores_length_nosym exFitClamp exLabels exWeights exProbs 0 false _ _,
        foldScores_length_nosym exFitClamp exLabels exWeights exProbs 0 false _ _⟩]
      rfl)

/-! ### The eta-space fixed point at probability one half -/

theorem scatter_foldScores_eta (fit : Fit) (labels weights probs : ℕ → ℝ)
    (threshold : ℝ) (logistic symmetrize : Bool) (indF ind₂ : List ℕ) (i : ℕ)
    (hmem : i ∈ ind₂) (hp : probs i = 1 / 2) :
    (foldScores fit labels weights probs threshold logistic true symmetrize indF
      ind₂).getD (ind₂.indexOf i) 0 = 1 / 2 := by
  have hklt : ind₂.indexOf i < ind₂.length := List.indexOf_lt_length.mpr hmem
  have hlen : (foldScores fit labels weights probs threshold logistic true symmetrize indF
      ind₂).length = ind₂.length :=
    foldScores_length_eta fit labels weights probs threshold logistic symmetrize indF ind₂
  have hklt2 : ind₂.indexOf i < (foldScores fit labels weights probs threshold logistic true
      symmetrize indF ind₂).length := by rw [hlen]; exact hklt
  rw [List.getD_eq_getElem _ 0 hklt2]
  simp only [foldScores, if_true]
  rw [List.getElem_zipWith, List.getElem_map, List.getElem_indexOf hklt]
  have htag : tagOf probs i = 0 := by
    rw [tagOf, dil, hp]
    norm_num
  rw [htag, etaInv]
  ring

/-- C10: with `inEtaSpace=True`, any input sample whose raw probability is
exactly one half gets calibrated output exactly one half, independently of
the fitted calibrator: its tag `sign(2*0.5 - 1)` is 0, so the inverse
transform `0.5 * (1 + (1 - 2*eta) * tag)` collapses to 0.5. -/
theorem C10_eta_space_half_fixed_point (fit : Fit) (labels weights probs : ℕ → ℝ)
    (n : ℕ) (logistic : Bool) (rs : ℕ) (threshold : ℝ) (symmetrize : Bool)
    (out : ℕ → ℝ) (d2 : ℝ) (i : ℕ)
    (hres : calibrate_probs fit labels weights probs n logistic rs threshold symmetrize true
      = some (out, d2))
    (hi : i < n) (hp : probs i = 1 / 2) : out i = 1 / 2 := by
  simp only [calibrate_probs] at hres
  split at hres
  · rw [Option.some.injEq, Prod.mk.injEq] at hres
    obtain ⟨hout, _⟩ := hres
    rw [← hout]
    have hcover := (train_test_split_cover rs n i).mpr hi
    unfold scatter
    by_cases h₂ : i ∈ (train_test_split rs n).2
    · rw [if_pos h₂]
      exact scatter_foldScores_eta fit labels weights probs threshold logistic symmetrize
        _ _ i h₂ hp
    · have h₁ : i ∈ (train_test_split rs n).1 := hcover.resolve_right h₂
      rw [if_neg h₂, if_pos h₁]
      exact scatter_foldScores_eta fit labels weights probs threshold logistic symmetrize
        _ _ i h₁ hp
  · exact absurd hres (by simp)

/-- Witness for C10 at a one-sample input with raw probability one half. -/
theorem C10_eta_space_half_fixed_point_witness :
    exProbsHalf 0 = 1 / 2 ∧ exOutEta 0 = 1 / 2 :=
  ⟨rfl,
   C10_eta_space_half_fixed_point exFitClamp exLabels exWeights exProbsHalf 1 false 11 0
     false exOutEta exD2Eta 0
     (by
       simp only [calibrate_probs]
       rw [if_pos ⟨foldScores_length_eta exFitClamp exLabels exWeights exProbsHalf 0 false _ _ _,
         foldScores_length_eta exFitClamp exLabels exWeights exProbsHalf 0 false _ _ _⟩]
       rfl)
     (by norm_num) rfl⟩

/-! ### The symmetrizer -/

theorem flip01 (x : ℝ) : (if x ≤ 0 then (1 : ℝ) else 0) = 1 - (if 0 < x then (1 : ℝ) else 0) := by
  by_cases h : 0 < x
  · rw [if_pos h, if_neg (not_le.mpr h)]
    norm_num
  · rw [if_neg h, if_pos (not_lt.mp h)]
    norm_num

theorem flav01 (labels : ℕ → ℝ) (threshold : ℝ) (i : ℕ) :
    (if 0 < flav labels threshold i then (1 : ℝ) else 0) = flav labels threshold i := by
  unfold flav
  by_cases h : threshold < labels i <;> simp [h]

theorem zip3_of_maps (f g h : ℕ → ℝ) (ind : List ℕ) :
    (ind.map f).zip ((ind.map g).zip (ind.map h)) = ind.map (fun i => (f i, g i, h i)) := by
  rw [List.zip_map' g h ind, List.zip_map' f _ ind]

theorem zip3_of_maps_append (f₁ g₁ h₁ f₂ g₂ h₂ : ℕ → ℝ) (ind : List ℕ) :
    ((ind.map f₁ ++ ind.map f₂).zip ((ind.map g₁ ++ ind.map g₂).zip
      (ind.map h₁ ++ ind.map h₂)))
      = ind.map (fun i => (f₁ i, g₁ i, h₁ i)) ++ ind.map (fun i => (f₂ i, g₂ i, h₂ i)) := by
  have hin : (ind.map g₁ ++ ind.map g₂).zip (ind.map h₁ ++ ind.map h₂)
      = (ind.map g₁).zip (ind.map h₁) ++ (ind.map g₂).zip (ind.map h₂) :=
    List.zip_append (by simp)
  rw [hin, List.zip_map' g₁ h₁ ind, List.zip_map' g₂ h₂ ind,
    List.zip_append (by simp), List.zip_map' f₁ _ ind, List.zip_map' f₂ _ ind]

theorem symmetrizeSamples_map (t : ℕ → ℝ × ℝ × ℝ) (ind : List ℕ) :
    symmetrizeSamples (ind.map t)
      = ind.map (fun i => ((t i).1, (t i).2.1, (t i).2.2 / 2))
        ++ ind.map (fun i => (1 - (t i).1, 1 - (t i).2.1, (t i).2.2 / 2)) := by
  simp only [symmetrizeSamples, List.map_map]
  rfl

/-- C4: with symmetrization enabled (outside eta space in `calibrate_probs`,
and in `bootstrap_calibrate_prob`), the (score, label, weight) triples handed
to the fold's calibrator fit are exactly the fold's samples at halved weight
concatenated with a mirror copy of each sample — score replaced by
`1 - score`, class label flipped, carrying the same halved weight. -/
theorem C4_symmetrize_fit_data (labels weights probs : ℕ → ℝ) (threshold : ℝ)
    (ind : List ℕ) :
    (xData probs false true ind).zip
        ((yData labels probs threshold false true ind).zip (wData weights false true ind))
      = symmetrizeSamples ((xData probs false false ind).zip
          ((yData labels probs threshold false false ind).zip (wData weights false false ind)))
    ∧ (bootstrapX probs true ind).zip
        ((bootstrapY labels threshold true ind).zip (bootstrapW weights true ind))
      = symmetrizeSamples ((bootstrapX probs false ind).zip
          ((bootstrapY labels threshold false ind).zip (bootstrapW weights false ind))) := by
  constructor
  · simp only [xData, yData, wData, Bool.false_eq_true, if_false, if_true]
    rw [zip3_of_maps_append, zip3_of_maps, symmetrizeSamples_map]
    congr 1
    · apply List.map_congr_left
      intro i _
      dsimp only
      rw [Prod.mk.injEq, Prod.mk.injEq]
      exact ⟨rfl, rfl, by ring⟩
    · apply List.map_congr_left
      intro i _
      dsimp only
      rw [Prod.mk.injEq, Prod.mk.injEq]
      exact ⟨rfl, by rw [flip01], by ring⟩
  · simp only [bootstrapX, bootstrapY, bootstrapW, Bool.false_eq_true, if_false, if_true]
    rw [zip3_of_maps_append, zip3_of_maps, symmetrizeSamples_map]
    congr 1
    · apply List.map_congr_left
      intro i _
      dsimp only
      rw [Prod.mk.injEq, Prod.mk.injEq]
      exact ⟨rfl, flav01 labels threshold i, by ring⟩
    · apply List.map_congr_left
      intro i _
      dsimp only
      rw [Prod.mk.injEq, Prod.mk.injEq]
      exact ⟨rfl, by rw [flip01, flav01], by ring⟩

/-! ### Single-particle event aggregation -/

theorem expit_log_odds (p : ℝ) (h0 : 0 < p) (h1 : p < 1) : expit (log_odds p) = p := by
  unfold expit log_odds
  rw [neg_sub, Real.exp_sub, Real.exp_log h0, Real.exp_log (by linarith)]
  have hp : p ≠ 0 := ne_of_gt h0
  field_simp

theorem getD_map_lt (l : List ℕ) (f : ℕ → ℝ) (k : ℕ) (hk : k < l.length) :
    (l.map f).getD k 0 = f (l.getD k 0) := by
  rw [List.getD_eq_getElem (l.map f) 0 (by rw [List.length_map]; exact hk),
    List.getD_eq_getElem l 0 hk, List.getElem_map]

/-- C3 counterexample: the single-particle event `exC3` has `signTrack = -1`,
so the aggregated probability is `expit(-logit(3/4)) = 1/4`, not the
particle's calibrated probability `3/4` — the log-odds term enters with its
particle-sign factor, so a lone opposite-sign particle yields `1 - p`. -/
theorem C3_counterexample :
    ((compute_B_prob_using_part_prob exC3 exC3probs false).2.2.1).getD 0 0 = 1 / 4
    ∧ exC3probs.getD 0 0 = 3 / 4 ∧ eventCount exC3 0 = 1 ∧ ((1 : ℝ) / 4) ≠ 3 / 4 := by
  refine ⟨?_, by norm_num [exC3probs], by decide, by norm_num⟩
  have hu : uniqueSorted exC3.event_id = [0] := by decide
  have hidx : eventIndices exC3 0 = [0] := by decide
  simp only [compute_B_prob_using_part_prob]
  rw [hu, getD_map_lt [0] _ 0 (by norm_num), List.getD_cons_zero]
  rw [eventSum, hidx]
  simp only [List.map_cons, List.map_nil, List.sum_cons, List.sum_nil, add_zero]
  rw [adjLogProb]
  rw [sign_weight, if_neg (by simp)]
  have hst : ((exC3.signTrack.getD 0 0 : ℤ) : ℝ) = -1 := by
    have h : exC3.signTrack.getD 0 0 = -1 := by decide
    rw [h]
    push_cast
    ring
  rw [hst]
  have hpd : exC3probs.getD 0 0 = 3 / 4 := by norm_num [exC3probs]
  rw [hpd]
  have hlo : log_odds (3 / 4) = Real.log 3 := by
    rw [log_odds, show (1 : ℝ) - 3 / 4 = 1 / 4 by norm_num,
      ← Real.log_div (by norm_num) (by norm_num)]
    norm_num
  rw [hlo, show Real.log 3 * (1 * (-1 : ℝ)) = -Real.log 3 by ring]
  rw [expit, neg_neg, Real.exp_log (by norm_num)]
  norm_num

/-- C3 amended: with `normed_signs` disabled, an event whose group consists
of exactly one particle whose `signTrack` is `+1` and whose calibrated
probability lies strictly between 0 and 1 receives an aggregated probability
equal to that particle's calibrated probability exactly (the inverse logit of
a one-term log-odds sum is the identity). -/
theorem C3_single_particle_identity (d : PartData) (probs : List ℝ) (v i k : ℕ)
    (hk : k < (uniqueSorted d.event_id).length)
    (hkv : (uniqueSorted d.event_id).getD k 0 = v)
    (hsingle : eventIndices d v = [i])
    (hsign : d.signTrack.getD i 0 = 1)
    (hp0 : 0 < probs.getD i 0) (hp1 : probs.getD i 0 < 1) :
    ((compute_B_prob_using_part_prob d probs false).2.2.1).getD k 0 = probs.getD i 0 := by
  simp only [compute_B_prob_using_part_prob]
  rw [getD_map_lt _ _ k hk, hkv, eventSum, hsingle]
  simp only [List.map_cons, List.map_nil, List.sum_cons, List.sum_nil, add_zero]
  rw [adjLogProb]
  rw [sign_weight, if_neg (by simp), hsign]
  rw [show log_odds (probs.getD i 0) * (1 * ((1 : ℤ) : ℝ)) = log_odds (probs.getD i 0) by
    push_cast
    ring]
  exact expit_log_odds _ hp0 hp1

/-- Witness for the amended C3 at the single same-sign-particle event
`exC3w`. -/
theorem C3_single_particle_identity_witness :
    eventIndices exC3w 7 = [0] ∧ exC3w.signTrack.getD 0 0 = 1
    ∧ (0 : ℝ) < exC3wprobs.getD 0 0 ∧ exC3wprobs.getD 0 0 < 1
    ∧ ((compute_B_prob_using_part_prob exC3w exC3wprobs false).2.2.1).getD 0 0
      = exC3wprobs.getD 0 0 :=
  ⟨by decide, by decide, by norm_num [exC3wprobs], by norm_num [exC3wprobs],
   C3_single_particle_identity exC3w exC3wprobs 7 0 0 (by decide) (by decide) (by decide)
     (by decide) (by norm_num [exC3wprobs]) (by norm_num [exC3wprobs])⟩

/-- C9: the `normed_signs` correction ratio divides by
`sum(maskB * maskPart)` without a guard; at the nonempty, well-formed input
`exC9` no particle has `signB = -1`, so for sign -1 the denominator is zero —
the source evaluates the quotient for both signs whenever `normed_signs` is
set, producing a float division by zero (nan/inf) there.  In the embedding's
total real arithmetic the factor evaluates to zero. -/
theorem C9_normed_signs_zero_denominator :
    countSign exC9 (-1) true = 0
    ∧ correctionFactor exC9 (-1)
      = (countSign exC9 (-1) false : ℝ) / ((0 : ℕ) : ℝ)
    ∧ countSign exC9 1 true = 1 ∧ 0 < exC9.event_id.length := by
  refine ⟨by decide, ?_, by decide, by decide⟩
  rw [correctionFactor]
  norm_num [show countSign exC9 (-1) true = 0 from by decide]

/-! ### Weighted pairwise AUC bounds -/

theorem pairContrib_nonneg (a b : ℝ) : 0 ≤ pairContrib a b := by
  rw [pairContrib]
  split
  · norm_num
  · split <;> norm_num

theorem pairContrib_le_one (a b : ℝ) : pairContrib a b ≤ 1 := by
  rw [pairContrib]
  split
  · norm_num
  · split <;> norm_num

theorem wauc_bounds (s : List ℤ) (p w : List ℝ)
    (hw : ∀ t ∈ taggedTriples s p w, 0 ≤ t.2.2)
    (hpos : 0 < classWeightSum 1 (taggedTriples s p w))
    (hneg : 0 < classWeightSum (-1) (taggedTriples s p w)) :
    0 ≤ wauc s p w ∧ wauc s p w ≤ 1 := by
  have hwP : ∀ t ∈ (taggedTriples s p w).filter (fun t => decide (t.1 = 1)), 0 ≤ t.2.2 :=
    fun t ht => hw t (List.mem_of_mem_filter ht)
  have hwN : ∀ t ∈ (taggedTriples s p w).filter (fun t => decide (t.1 = -1)), 0 ≤ t.2.2 :=
    fun t ht => hw t (List.mem_of_mem_filter ht)
  have hinner_nonneg : ∀ a : ℤ × ℝ × ℝ,
      0 ≤ (((taggedTriples s p w).filter (fun t => decide (t.1 = -1))).map
        (fun b => b.2.2 * pairContrib a.2.1 b.2.1)).sum := by
    intro a
    apply List.sum_nonneg
    intro x hx
    rw [List.mem_map] at hx
    obtain ⟨b, hb, hbx⟩ := hx
    rw [← hbx]
    exact mul_nonneg (hwN b hb) (pairContrib_nonneg _ _)
  have hinner_le : ∀ a : ℤ × ℝ × ℝ,
      (((taggedTriples s p w).filter (fun t => decide (t.1 = -1))).map
        (fun b => b.2.2 * pairContrib a.2.1 b.2.1)).sum
      ≤ classWeightSum (-1) (taggedTriples s p w) := by
    intro a
    rw [classWeightSum]
    apply List.sum_le_sum
    intro b hb
    calc b.2.2 * pairContrib a.2.1 b.2.1 ≤ b.2.2 * 1 :=
          mul_le_mul_of_nonneg_left (pairContrib_le_one _ _) (hwN b hb)
      _ = b.2.2 := mul_one _
  have hnum_nonneg : 0 ≤ waucNum (taggedTriples s p w) := by
    rw [waucNum]
    apply List.sum_nonneg
    intro x hx
    rw [List.mem_map] at hx
    obtain ⟨a, ha, hax⟩ := hx
    rw [← hax]
    exact mul_nonneg (hwP a ha) (hinner_nonneg a)
  have hnum_le : waucNum (taggedTriples s p w)
      ≤ classWeightSum 1 (taggedTriples s p w) * classWeightSum (-1) (taggedTriples s p w) := by
    rw [waucNum, classWeightSum]
    calc (((taggedTriples s p w).filter (fun t => decide (t.1 = 1))).map
          (fun a => a.2.2 * (((taggedTriples s p w).filter
            (fun t => decide (t.1 = -1))).map
              (fun b => b.2.2 * pairContrib a.2.1 b.2.1)).sum)).sum
        ≤ (((taggedTriples s p w).filter (fun t => decide (t.1 = 1))).map
            (fun a => a.2.2 * classWeightSum (-1) (taggedTriples s p w))).sum := by
          apply List.sum_le_sum
          intro a ha
          exact mul_le_mul_of_nonneg_left (hinner_le a) (hwP a ha)
      _ = (((taggedTriples s p w).filter (fun t => decide (t.1 = 1))).map
            (fun a => a.2.2)).sum * classWeightSum (-1) (taggedTriples s p w) :=
          List.sum_map_mul_right _ _ _
  constructor
  · exact div_nonneg hnum_nonneg (mul_nonneg hpos.le hneg.le)
  · rw [wauc, div_le_one (mul_pos hpos hneg)]
    exact hnum_le

/-- C7 counterexample: at the concrete tagged sample
`(exC7sign, exC7probs, exC7w)` the tagged-only AUC is `29/50 > 1/2` while the
full AUC with the two untagged pseudo-samples falls strictly below `1/2` —
`auc_full` does not lie between 0.5 and `auc`. -/
theorem C7_counterexample :
    1 / 2 < (calculate_auc_with_and_without_untag_events exC7sign exC7probs exC7w).1
    ∧ (calculate_auc_with_and_without_untag_events exC7sign exC7probs exC7w).2 < 1 / 2
    ∧ ¬ (min (1 / 2) (calculate_auc_with_and_without_untag_events exC7sign exC7probs exC7w).1
          ≤ (calculate_auc_with_and_without_untag_events exC7sign exC7probs exC7w).2
        ∧ (calculate_auc_with_and_without_untag_events exC7sign exC7probs exC7w).2
          ≤ max (1 / 2) (calculate_auc_with_and_without_untag_events exC7sign exC7probs exC7w).1) := by
  have h1 : (calculate_auc_with_and_without_untag_events exC7sign exC7probs exC7w).1
      = 29 / 50 := by
    norm_num [calculate_auc_with_and_without_untag_events, wauc, waucNum, classWeightSum,
      taggedTriples, pairContrib, exC7sign, exC7probs, exC7w]
  have h2 : (calculate_auc_with_and_without_untag_events exC7sign exC7probs exC7w).2
      < 1 / 2 := by
    norm_num [calculate_auc_with_and_without_untag_events, wauc, waucNum, classWeightSum,
      taggedTriples, pairContrib, exC7sign, exC7probs, exC7w, get_N_B_events]
  refine ⟨by rw [h1]; norm_num, h2, ?_⟩
  rw [h1]
  intro hcon
  have := hcon.1
  rw [show min (1 / 2 : ℝ) (29 / 50) = 1 / 2 by norm_num] at this
  linarith

/-- C7 amended: `calculate_auc_with_and_without_untag_events` computes the
full AUC after appending exactly two untagged pseudo-samples with signs -1
and +1, probability 0.5 each, and weight equal to half the untagged remainder
(`get_N_B_events()` minus the summed tagged weights); the betweenness of the
original claim fails (see the counterexample), but with non-negative weights,
a tagged weight total not exceeding the total event count and both extended
classes carrying positive weight, `auc_full` lies in the unit interval. -/
theorem C7_auc_full_construction_and_range (Bsign : List ℤ) (Bprobs Bweights : List ℝ)
    (hw : ∀ x ∈ Bweights, 0 ≤ x)
    (hrem : Bweights.sum ≤ get_N_B_events)
    (hpos : 0 < classWeightSum 1 (taggedTriples (Bsign ++ [-1, 1]) (Bprobs ++ [1 / 2, 1 / 2])
      (Bweights ++ [(get_N_B_events - Bweights.sum) / 2, (get_N_B_events - Bweights.sum) / 2])))
    (hneg : 0 < classWeightSum (-1) (taggedTriples (Bsign ++ [-1, 1]) (Bprobs ++ [1 / 2, 1 / 2])
      (Bweights ++ [(get_N_B_events - Bweights.sum) / 2, (get_N_B_events - Bweights.sum) / 2]))) :
    (calculate_auc_with_and_without_untag_events Bsign Bprobs Bweights).2
      = wauc (Bsign ++ [-1, 1]) (Bprobs ++ [1 / 2, 1 / 2])
        (Bweights ++ [(get_N_B_events - Bweights.sum) / 2, (get_N_B_events - Bweights.sum) / 2])
    ∧ 0 ≤ (calculate_auc_with_and_without_untag_events Bsign Bprobs Bweights).2
    ∧ (calculate_auc_with_and_without_untag_events Bsign Bprobs Bweights).2 ≤ 1 := by
  have hu : 0 ≤ (get_N_B_events - Bweights.sum) / 2 :=
    div_nonneg (sub_nonneg.mpr hrem) (by norm_num)
  have hwext : ∀ t ∈ taggedTriples (Bsign ++ [-1, 1]) (Bprobs ++ [1 / 2, 1 / 2])
      (Bweights ++ [(get_N_B_events - Bweights.sum) / 2,
        (get_N_B_events - Bweights.sum) / 2]), 0 ≤ t.2.2 := by
    intro t ht
    obtain ⟨a, b, c⟩ := t
    have hbc := (List.of_mem_zip ht).2
    have hc := (List.of_mem_zip hbc).2
    simp only [List.mem_append, List.mem_cons, List.not_mem_nil, or_false] at hc
    dsimp only
    rcases hc with hc | hc | hc
    · exact hw c hc
    · rw [hc]
      exact hu
    · rw [hc]
      exact hu
  have hb := wauc_bounds _ _ _ hwext hpos hneg
  exact ⟨rfl, hb.1, hb.2⟩

/-- Witness for the amended C7 at a two-sample tagged input. -/
theorem C7_auc_full_construction_and_range_witness :
    (calculate_auc_with_and_without_untag_events exC7wsign exC7wprobs exC7ww).2
      = wauc (exC7wsign ++ [-1, 1]) (exC7wprobs ++ [1 / 2, 1 / 2])
        (exC7ww ++ [(get_N_B_events - exC7ww.sum) / 2, (get_N_B_events - exC7ww.sum) / 2])
    ∧ 0 ≤ (calculate_auc_with_and_without_untag_events exC7wsign exC7wprobs exC7ww).2
    ∧ (calculate_auc_with_and_without_untag_events exC7wsign exC7wprobs exC7ww).2 ≤ 1 :=
  C7_auc_full_construction_and_range exC7wsign exC7wprobs exC7ww
    (by
      intro x hx
      simp only [exC7ww, List.mem_cons, List.not_mem_nil, or_false] at hx
      rcases hx with h | h <;> rw [h] <;> norm_num)
    (by norm_num [exC7ww, get_N_B_events])
    (by norm_num [classWeightSum, taggedTriples, exC7wsign, exC7wprobs, exC7ww, get_N_B_events])
    (by norm_num [classWeightSum, taggedTriples, exC7wsign, exC7wprobs, exC7ww, get_N_B_events])

/-- C8: the caller-side clamp of `get_B_data_for_given_part` is a total
masking operation on the aggregated-probability array: every non-finite or
nan entry becomes exactly 0.5, and every finite entry is left unchanged —
no error is raised or surfaced. -/
theorem C8_nonfinite_clamp (l : List RFloat) (i : ℕ) (hi : i < l.length) :
    ((l.getD i RFloat.nan).isfinite = false ∨ (l.getD i RFloat.nan).isnan = true →
      (clampBprobs l).getD i RFloat.nan = RFloat.num (1 / 2))
    ∧ ((l.getD i RFloat.nan).isfinite = true →
      (clampBprobs l).getD i RFloat.nan = l.getD i RFloat.nan) := by
  have hlen : i < (clampBprobs l).length := by
    rw [clampBprobs, List.length_map]
    exact hi
  rw [List.getD_eq_getElem l RFloat.nan hi, List.getD_eq_getElem _ RFloat.nan hlen]
  simp only [clampBprobs, List.getElem_map]
  cases h : l[i] with
  | num x =>
      constructor
      · intro hc
        rcases hc with hc | hc <;> simp [RFloat.isfinite, RFloat.isnan] at hc
      · intro _
        simp [clampBprob, RFloat.isfinite, RFloat.isnan]
  | posinf =>
      constructor
      · intro _
        simp [clampBprob, RFloat.isfinite, RFloat.isnan]
      · intro hc
        simp [RFloat.isfinite] at hc
  | neginf =>
      constructor
      · intro _
        simp [clampBprob, RFloat.isfinite, RFloat.isnan]
      · intro hc
        simp [RFloat.isfinite] at hc
  | nan =>
      constructor
      · intro _
        simp [clampBprob, RFloat.isfinite, RFloat.isnan]
      · intro hc
        simp [RFloat.isfinite] at hc

/-- Witness for C8 on an array holding a finite value, a nan and an inf. -/
theorem C8_nonfinite_clamp_witness :
    (clampBprobs exC8).getD 1 RFloat.nan = RFloat.num (1 / 2)
    ∧ (clampBprobs exC8).getD 2 RFloat.nan = RFloat.num (1 / 2)
    ∧ (clampBprobs exC8).getD 0 RFloat.nan = exC8.getD 0 RFloat.nan :=
  ⟨(C8_nonfinite_clamp exC8 1 (by decide)).1 (Or.inr (by decide)),
   (C8_nonfinite_clamp exC8 2 (by decide)).1 (Or.inl (by decide)),
   (C8_nonfinite_clamp exC8 0 (by decide)).2 (by decide)⟩

end Tagging
